import Mathlib

/-!
Shallow embedding of the `lineup` text re-tokenizer (Rust).

Strings are modelled as `List Char` (Rust `&str` is a sequence of Unicode
scalar values); byte positions and byte lengths are recovered through
`Char.utf8Size`, which is exactly the number of bytes of a scalar value's
UTF-8 encoding.  Substring search on a UTF-8 byte buffer always matches on
character boundaries (UTF-8 is self-synchronizing), so character-level
search is faithful for `str::split_once`.

`ItemReader.next_item` / `ItemReader.next` return `Option (Option Str × ItemReader)`:
the outer `none` models a Rust panic (`str::split_at` called off a character
boundary), the inner option is the `Option<&str>` of the source.  Iteration
is fuelled; every claim instantiates the fuel at `input.length + 1`, which
is enough for every step that consumes input (a step of `ByteCount 0`, which
loops forever in the source, is outside every claim's hypotheses).

The output sink is modelled by `SinkSpec`: a function deciding, from the
chunks accepted so far and the next chunk, whether the next `write_all`
call fails and with which error code.  Results carry the sink's accepted
history, so "no bytes are written after a failure" is a provable statement.
-/

namespace Lineup

abbrev Str := List Char

def byteLen (s : Str) : Nat := (s.map Char.utf8Size).sum

/-- Index of the first occurrence of `sep` in `s` (Rust `str::find` for a
literal pattern); the empty pattern matches at index 0. -/
def findOcc : Str → Str → Option Nat
  | [], sep => if sep = [] then some 0 else none
  | c :: t, sep =>
    if sep.isPrefixOf (c :: t) then some 0 else (findOcc t sep).map (· + 1)

/-- Rust `str::split_once`: text before the first match and text after it. -/
def splitOnce (s sep : Str) : Option (Str × Str) :=
  match findOcc s sep with
  | none => none
  | some i => some (s.take i, s.drop (i + sep.length))

/-- Rust `str::split_at` at a byte offset: `none` models the panic when the
offset falls inside a multi-byte character. -/
def splitAtBytes : Nat → Str → Option (Str × Str)
  | 0, s => some ([], s)
  | _ + 1, [] => none
  | n + 1, c :: s =>
    if c.utf8Size ≤ n + 1 then
      (splitAtBytes (n + 1 - c.utf8Size) s).map (fun p => (c :: p.1, p.2))
    else none

inductive Anchor
  | Right
  | Left
deriving DecidableEq

structure ItemSpan where
  span : Nat
  pad : Char
  anchor : Anchor
deriving DecidableEq

inductive ItemSeparator
  | Explicit (s : Str)
  | ByteCount (n : Nat)
deriving DecidableEq

structure LineSeparator where
  items_per_line : Nat
  line_separator : Str
deriving DecidableEq

structure InFormat where
  item_separator : ItemSeparator
  line_separator : Option LineSeparator
deriving DecidableEq

structure OutFormat where
  span : Option ItemSpan
  item_separator : Str
  line_separator : Option LineSeparator
deriving DecidableEq

structure ItemReader where
  input : Str
  fmt : InFormat
  items_in_current_line : Nat
deriving DecidableEq

def ItemReader.new (input : Str) (fmt : InFormat) : ItemReader :=
  ⟨input, fmt, 0⟩

/-- `ItemReader::next_item` from `src/lib.rs`.  Outer `none` = panic of
`split_at` (only reachable in the `ByteCount` branch). -/
def ItemReader.next_item (r : ItemReader) (separator : ItemSeparator) :
    Option (Option Str × ItemReader) :=
  if r.input = [] then some (none, r)
  else
    match separator with
    | .Explicit sep =>
      match splitOnce r.input sep with
      | none => some (some r.input, { r with input := [] })
      | some (item, remainder) =>
        if item = [] then some (none, { r with input := remainder })
        else some (some item, { r with input := remainder })
    | .ByteCount count =>
      if count ≤ byteLen r.input then
        match splitAtBytes count r.input with
        | some (a, b) => some (some a, { r with input := b })
        | none => none
      else some (none, { r with input := [] })

/-- `Iterator::next` for `ItemReader`: pick this step's separator from the
reader's own line-grouping counter, then delegate to `next_item`.  (In the
source the counter is mutated before `next_item` runs; here the updated
state is passed to `next_item`.) -/
def ItemReader.next (r : ItemReader) : Option (Option Str × ItemReader) :=
  match r.fmt.line_separator with
  | some ls =>
    if r.items_in_current_line = ls.items_per_line - 1 then
      ItemReader.next_item { r with items_in_current_line := 0 }
        (.Explicit ls.line_separator)
    else
      ItemReader.next_item
        { r with items_in_current_line := r.items_in_current_line + 1 }
        r.fmt.item_separator
  | none => ItemReader.next_item r r.fmt.item_separator

/-- Pull items until the iterator returns `None` (the semantics of the
`for item in istream` loop in the top-level `write`).  `none` = a step
panicked; fuel bounds the number of pulls. -/
def run : ItemReader → Nat → Option (List Str)
  | _, 0 => some []
  | r, fuel + 1 =>
    match ItemReader.next r with
    | none => none
    | some (none, _) => some []
    | some (some item, r') => (run r' fuel).map (item :: ·)

/-- The item sequence the `lineup::read` iterator feeds into a `for` loop. -/
def readAll (fmt : InFormat) (input : Str) : Option (List Str) :=
  run (ItemReader.new input fmt) (input.length + 1)

inductive EmittingSeparator
  | None
  | Item
  | Line
deriving DecidableEq

/-- A sink (`impl std::io::Write`): given the chunks accepted so far and the
chunk now being written, decide whether this `write_all` call fails, and
with which error code. -/
structure SinkSpec where
  fail : List Str → Str → Option Nat

/-- `write_all` against a `SinkSpec`: on failure the error carries the
sink's accepted history (the bytes that are actually in the sink). -/
def write_all (sp : SinkSpec) (hist : List Str) (chunk : Str) :
    Except (Nat × List Str) (List Str) :=
  match sp.fail hist chunk with
  | some e => .error (e, hist)
  | none => .ok (hist ++ [chunk])

structure ItemWriter where
  separator : EmittingSeparator
  fmt : OutFormat
  items_in_line : Nat

def ItemWriter.new (fmt : OutFormat) : ItemWriter :=
  ⟨.None, fmt, 0⟩

/-- The string the `EmittingSeparator::Line` branch writes: the source
unwraps `fmt.line_separator`; that unwrap cannot fail from `ItemWriter::new`
because `Line` is only ever stored when `line_separator` is `Some`, so the
`none` default here is unreachable in the claims. -/
def lineSepChunk (fmt : OutFormat) : Str :=
  match fmt.line_separator with
  | some ls => ls.line_separator
  | none => []

/-- Phase 1 of `ItemWriter::write` ("emit separator from previous input"). -/
def emitPendingSep (w : ItemWriter) (sp : SinkSpec) (hist : List Str) :
    Except (Nat × List Str) (List Str) :=
  match w.separator with
  | .None => .ok hist
  | .Item => write_all sp hist w.fmt.item_separator
  | .Line => write_all sp hist (lineSepChunk w.fmt)

/-- Phase 2 of `ItemWriter::write` ("write (padded) input"): the item and
its pad are separate `write_all` calls, in anchor order. -/
def writeBody (fmtSpan : Option ItemSpan) (item : Str) (sp : SinkSpec)
    (hist1 : List Str) : Except (Nat × List Str) (List Str) :=
  match fmtSpan with
  | some s =>
    if item.length < s.span then
      let pad := List.replicate (s.span - item.length) s.pad
      match s.anchor with
      | .Left =>
        match write_all sp hist1 item with
        | .error e => .error e
        | .ok hist2 => write_all sp hist2 pad
      | .Right =>
        match write_all sp hist1 pad with
        | .error e => .error e
        | .ok hist2 => write_all sp hist2 item
    else write_all sp hist1 item
  | none => write_all sp hist1 item

/-- Phase 3 of `ItemWriter::write` ("decide on separator for next input"). -/
def nextSepDecision (fmt : OutFormat) (cnt : Nat) : EmittingSeparator × Nat :=
  match fmt.line_separator with
  | some ls => if cnt + 1 < ls.items_per_line then (.Item, cnt + 1) else (.Line, 0)
  | none => (.Item, 0)

/-- `ItemWriter::write` from `src/lib.rs`: emit the separator decided after
the previous call, write the (possibly padded) item, then decide the next
separator.  `?`-propagation of the source is the explicit `match` on each
fallible result; the three inline phases of the source are the three
helper functions above. -/
def ItemWriter.write (w : ItemWriter) (item : Str) (sp : SinkSpec)
    (hist : List Str) : Except (Nat × List Str) (ItemWriter × List Str) :=
  match emitPendingSep w sp hist with
  | .error e => .error e
  | .ok hist1 =>
    match writeBody w.fmt.span item sp hist1 with
    | .error e => .error e
    | .ok hist2 =>
      let nxt := nextSepDecision w.fmt w.items_in_line
      .ok ({ w with separator := nxt.1, items_in_line := nxt.2 }, hist2)

/-- The loop body of the top-level `lineup::write`. -/
def writeLoop (w : ItemWriter) (items : List Str) (sp : SinkSpec)
    (hist : List Str) : Except (Nat × List Str) (List Str) :=
  match items with
  | [] => .ok hist
  | item :: rest =>
    match ItemWriter.write w item sp hist with
    | .error e => .error e
    | .ok (w', hist') => writeLoop w' rest sp hist'

/-- Top-level `lineup::write`: drive a fresh `ItemWriter` over all items. -/
def write (items : List Str) (sp : SinkSpec) (fmt : OutFormat) :
    Except (Nat × List Str) (List Str) :=
  writeLoop (ItemWriter.new fmt) items sp []

/-- A sink that accepts everything. -/
def noFailSink : SinkSpec := ⟨fun _ _ => none⟩

/-- The text produced by `lineup::write` on an infallible sink. -/
def writePure (items : List Str) (fmt : OutFormat) : Str :=
  match write items noFailSink fmt with
  | .ok hist => hist.flatten
  | .error _ => []

/-- Rust `str::split` for a non-empty literal pattern: repeated
first-occurrence splitting, keeping every (possibly empty) segment. -/
def splitFull (d : Str) : Nat → Str → List Str
  | 0, s => [s]
  | fuel + 1, s =>
    match splitOnce s d with
    | none => [s]
    | some (a, b) => a :: splitFull d fuel b

/-- The `ByteCount` loop of `util::to_iter`: chop `min count (byte length)`
bytes per round, keeping the short final chunk; `none` models the
`split_at` panic off a character boundary. -/
def toIterBytes (count : Nat) : Nat → Str → Option (List Str)
  | _, [] => some []
  | 0, _ :: _ => some []
  | fuel + 1, s =>
    match splitAtBytes (min count (byteLen s)) s with
    | none => none
    | some (a, b) => (toIterBytes count fuel b).map (a :: ·)

/-- `util::to_iter` from `src/util.rs`: `split_terminator` for an explicit
separator (full split, with the trailing segment dropped when empty), or
the byte-chunking loop. -/
def to_iter (istream : Str) (sep : ItemSeparator) : Option (List Str) :=
  match sep with
  | .Explicit d =>
    let segs := splitFull d (istream.length + 1) istream
    some (match segs.getLast? with
      | some [] => segs.dropLast
      | _ => segs)
  | .ByteCount count => toIterBytes count (istream.length + 1) istream

/-- Whether `d` occurs (as a contiguous substring) in `s`. -/
def occursIn (d s : Str) : Bool := (findOcc s d).isSome

/-- Whether byte offset `k` of `s` is a UTF-8 character boundary: some
character-prefix of `s` encodes to exactly `k` bytes. -/
def hasBoundary (s : Str) (k : Nat) : Bool :=
  (List.range (s.length + 1)).any fun i => byteLen (s.take i) == k

/-- Modelled from the spec (§4.2 step 2): the padded form of one item —
`item ++ pad` for `Left` anchor, `pad ++ item` for `Right`, the item
unchanged when no span is configured or the item is already wide enough. -/
def paddedItem (sp : Option ItemSpan) (item : Str) : Str :=
  match sp with
  | some s =>
    if item.length < s.span then
      match s.anchor with
      | .Left => item ++ List.replicate (s.span - item.length) s.pad
      | .Right => List.replicate (s.span - item.length) s.pad ++ item
    else item
  | none => item

/-- The chunk a pending `EmittingSeparator` makes `ItemWriter::write` emit. -/
def sepChunks (w : ItemWriter) : List Str :=
  match w.separator with
  | .None => []
  | .Item => [w.fmt.item_separator]
  | .Line => [lineSepChunk w.fmt]

/-- The `write_all` chunks the padding step of `ItemWriter::write` emits
(the item and its pad are separate `write_all` calls in the source). -/
def itemChunks (sp : Option ItemSpan) (item : Str) : List Str :=
  match sp with
  | some s =>
    if item.length < s.span then
      match s.anchor with
      | .Left => [item, List.replicate (s.span - item.length) s.pad]
      | .Right => [List.replicate (s.span - item.length) s.pad, item]
    else [item]
  | none => [item]

/-- The writer state after one `ItemWriter::write` call (the "decide on
separator for next input" step of the source). -/
def stepWriter (w : ItemWriter) : ItemWriter :=
  match w.fmt.line_separator with
  | some ls =>
    if w.items_in_line + 1 < ls.items_per_line then
      { w with separator := .Item, items_in_line := w.items_in_line + 1 }
    else { w with separator := .Line, items_in_line := 0 }
  | none => { w with separator := .Item, items_in_line := 0 }

/-- All chunks a writer starting in state `w` sends for a list of items. -/
def emit (w : ItemWriter) : List Str → List Str
  | [] => []
  | it :: rest => sepChunks w ++ itemChunks w.fmt.span it ++ emit (stepWriter w) rest

/-- Modelled from the spec (claim C5): the expected output from (0-based)
position `i` on, with line-grouping `k`/`ls`: no separator before the first
item, `ls` before an item at a position that is a multiple of `k`, the
ordinary item separator before every other item. -/
def expectedFromPos (sp : Option ItemSpan) (isep : Str) (k : Nat) (ls : Str) :
    Nat → List Str → Str
  | _, [] => []
  | i, it :: rest =>
    (if i = 0 then [] else if i % k = 0 then ls else isep) ++ paddedItem sp it ++
      expectedFromPos sp isep k ls (i + 1) rest

/-- The pending-separator state of a grouped writer before its `i`-th
(0-based) item: nothing first, the line separator at multiples of `k`,
the item separator elsewhere. -/
def sepState (k i : Nat) : EmittingSeparator :=
  if i = 0 then .None else if i % k = 0 then .Line else .Item

/-- A sink history is consistent when the sink accepted every chunk in it
(each `fail` query along the way returned `none`). -/
def Consistent (sp : SinkSpec) (h : List Str) : Prop :=
  ∀ i (hi : i < h.length), sp.fail (h.take i) h[i] = none

/-- Modelled from the spec (claim C9): the precondition under which the CLI
tokenizer and the core reader are claimed to agree — a non-empty explicit
delimiter producing no empty segment, or a positive byte count dividing the
byte length with every needed split point on a character boundary. -/
def sepOk : ItemSeparator → Str → Prop
  | .Explicit d, s => d ≠ [] ∧ ∀ seg ∈ splitFull d (s.length + 1) s, seg ≠ []
  | .ByteCount n, s =>
    0 < n ∧ n ∣ byteLen s ∧
      ∀ k, k ≤ byteLen s → n ∣ k → hasBoundary s k = true

theorem byteLen_nil : byteLen [] = 0 := rfl

theorem byteLen_cons (c : Char) (t : Str) :
    byteLen (c :: t) = c.utf8Size + byteLen t := by
  simp [byteLen]

theorem byteLen_append (a b : Str) : byteLen (a ++ b) = byteLen a + byteLen b := by
  simp [byteLen]

theorem byteLen_eq_zero {s : Str} : byteLen s = 0 ↔ s = [] := by
  cases s with
  | nil => simp [byteLen_nil]
  | cons c t =>
    simp only [byteLen_cons]
    have := Char.utf8Size_pos c
    constructor
    · intro h; omega
    · intro h; simp at h

theorem byteLen_take_le (s : Str) (i : Nat) : byteLen (s.take i) ≤ byteLen s := by
  conv_rhs => rw [← List.take_append_drop i s]
  rw [byteLen_append]
  omega

theorem byteLen_take_mono (s : Str) {i j : Nat} (h : i ≤ j) :
    byteLen (s.take i) ≤ byteLen (s.take j) := by
  have : s.take i = (s.take j).take i := by
    rw [List.take_take, Nat.min_eq_left h]
  rw [this]
  exact byteLen_take_le _ _

theorem length_le_byteLen (s : Str) : s.length ≤ byteLen s := by
  induction s with
  | nil => simp [byteLen_nil]
  | cons c t ih =>
    rw [byteLen_cons]
    have := Char.utf8Size_pos c
    simp only [List.length_cons]
    omega

theorem isPrefixOf_iff : ∀ (a b : Str), a.isPrefixOf b = true ↔ ∃ t, b = a ++ t
  | [], b => by simp [List.isPrefixOf]
  | _ :: _, [] => by simp [List.isPrefixOf]
  | x :: xs, y :: ys => by
    simp only [List.isPrefixOf, Bool.and_eq_true, beq_iff_eq, isPrefixOf_iff xs ys,
      List.cons_append, List.cons.injEq]
    constructor
    · rintro ⟨rfl, t, rfl⟩; exact ⟨t, rfl, rfl⟩
    · rintro ⟨t, rfl, rfl⟩; exact ⟨rfl, t, rfl⟩

theorem getLast?_mem' : ∀ (l : List α) (a : α), l.getLast? = some a → a ∈ l
  | [], _, h => by simp at h
  | [_], _, h => by simp_all
  | x :: y :: t, a, h => by
    rw [List.getLast?_cons_cons] at h
    exact List.mem_cons_of_mem _ (getLast?_mem' (y :: t) a h)

theorem hasBoundary_iff {s : Str} {k : Nat} :
    hasBoundary s k = true ↔ ∃ i, i ≤ s.length ∧ byteLen (s.take i) = k := by
  simp only [hasBoundary, List.any_eq_true, List.mem_range, beq_iff_eq, Nat.lt_succ_iff]

theorem findOcc_some : ∀ (s d : Str) (i : Nat), findOcc s d = some i →
    ∃ t, s.drop i = d ++ t
  | [], d, i, h => by
    simp only [findOcc] at h
    split at h
    · rename_i hd
      cases h
      exact ⟨[], by simp [hd]⟩
    · cases h
  | c :: t, d, i, h => by
    simp only [findOcc] at h
    split at h
    · rename_i hp
      cases h
      obtain ⟨u, hu⟩ := (isPrefixOf_iff d (c :: t)).mp hp
      exact ⟨u, by simpa using hu⟩
    · simp only [Option.map_eq_some'] at h
      obtain ⟨j, hj, rfl⟩ := h
      obtain ⟨u, hu⟩ := findOcc_some t d j hj
      exact ⟨u, by simpa using hu⟩

theorem splitOnce_eq {s d a b : Str} (h : splitOnce s d = some (a, b)) :
    s = a ++ d ++ b := by
  unfold splitOnce at h
  cases hf : findOcc s d with
  | none => rw [hf] at h; cases h
  | some i =>
    rw [hf] at h
    cases h
    obtain ⟨t, ht⟩ := findOcc_some s d i hf
    have hb : s.drop (i + d.length) = t := by
      rw [← List.drop_drop, ht, List.drop_left]
    rw [hb, List.append_assoc, ← ht, List.take_append_drop]

theorem splitOnce_len {s d a b : Str} (hd : d ≠ [])
    (h : splitOnce s d = some (a, b)) : b.length < s.length := by
  have := splitOnce_eq h
  subst this
  have : 0 < d.length := List.length_pos.mpr hd
  simp only [List.length_append]
  omega

theorem run_nil (fmt : InFormat) (c : Nat) : ∀ fuel, run ⟨[], fmt, c⟩ fuel = some []
  | 0 => rfl
  | _ + 1 => by
    cases hls : fmt.line_separator with
    | none => simp [run, ItemReader.next, ItemReader.next_item, hls]
    | some ls =>
      by_cases hc : c = ls.items_per_line - 1 <;>
        simp [run, ItemReader.next, ItemReader.next_item, hls, hc]

theorem splitFull_ne_nil (d : Str) (fuel : Nat) (s : Str) : splitFull d fuel s ≠ [] := by
  cases fuel with
  | zero => simp [splitFull]
  | succ f => cases h : splitOnce s d <;> simp [splitFull, h]

theorem intercalate_cons_of_ne_nil (d a : Str) (rest : List Str) (h : rest ≠ []) :
    List.intercalate d (a :: rest) = a ++ d ++ List.intercalate d rest := by
  cases rest with
  | nil => exact absurd rfl h
  | cons r rs => simp [List.intercalate, List.intersperse]

theorem intercalate_splitFull (d : Str) : ∀ fuel s,
    List.intercalate d (splitFull d fuel s) = s := by
  intro fuel
  induction fuel with
  | zero => intro s; simp [splitFull, List.intercalate]
  | succ f ih =>
    intro s
    unfold splitFull
    cases hso : splitOnce s d with
    | none => simp [List.intercalate]
    | some p =>
      obtain ⟨a, b⟩ := p
      rw [intercalate_cons_of_ne_nil d a (splitFull d f b) (splitFull_ne_nil d f b), ih b]
      exact (splitOnce_eq hso).symm

theorem run_explicit (d : Str) (hd : d ≠ []) : ∀ fuel (s : Str) (c : Nat),
    s.length < fuel →
    (∀ seg ∈ splitFull d fuel s, seg ≠ []) →
    run ⟨s, ⟨.Explicit d, none⟩, c⟩ fuel = some (splitFull d fuel s) := by
  intro fuel
  induction fuel with
  | zero => intro s c hlen _; omega
  | succ f ih =>
    intro s c hlen hseg
    by_cases hs : s = []
    · subst hs
      have : findOcc [] d = none := by simp [findOcc, hd]
      have hso : splitOnce [] d = none := by simp [splitOnce, this]
      exact absurd (hseg [] (by simp [splitFull, hso])) (by simp)
    · cases hso : splitOnce s d with
      | none =>
        simp only [run, ItemReader.next, ItemReader.next_item, splitFull, hso]
        simp [hs, hso, run_nil]
      | some p =>
        obtain ⟨a, b⟩ := p
        have ha : a ≠ [] := hseg a (by simp [splitFull, hso])
        have hb : ∀ seg ∈ splitFull d f b, seg ≠ [] := by
          intro seg hmem
          exact hseg seg (by simp [splitFull, hso, hmem])
        have hblen : b.length < f := by
          have := splitOnce_len hd hso
          omega
        simp only [run, ItemReader.next, ItemReader.next_item, splitFull, hso]
        simp [hs, hso, ha, ih b c hblen hb, splitFull]

theorem write_noFail (w : ItemWriter) (item : Str) (hist : List Str) :
    ItemWriter.write w item noFailSink hist =
      .ok (stepWriter w, hist ++ (sepChunks w ++ itemChunks w.fmt.span item)) := by
  obtain ⟨sep, ⟨sp, isep, ls⟩, cnt⟩ := w
  cases sep <;> rcases sp with _ | ⟨sn, pd, sa⟩ <;> rcases ls with _ | ⟨n, lsep⟩ <;>
    (try cases sa) <;>
    simp only [ItemWriter.write, emitPendingSep, writeBody, nextSepDecision,
      write_all, noFailSink, sepChunks, itemChunks, stepWriter, lineSepChunk] <;>
    (try split_ifs) <;>
    simp [List.append_assoc]

theorem writeLoop_noFail (items : List Str) : ∀ (w : ItemWriter) (hist : List Str),
    writeLoop w items noFailSink hist = .ok (hist ++ emit w items) := by
  induction items with
  | nil => intro w hist; simp [writeLoop, emit]
  | cons it rest ih =>
    intro w hist
    simp only [writeLoop, write_noFail, emit]
    rw [ih]
    simp [List.append_assoc]

theorem writePure_emit (items : List Str) (fmt : OutFormat) :
    writePure items fmt = (emit (ItemWriter.new fmt) items).flatten := by
  simp [writePure, write, writeLoop_noFail]

theorem paddedItem_none (item : Str) : paddedItem none item = item := rfl

theorem itemChunks_flatten (sp : Option ItemSpan) (item : Str) :
    (itemChunks sp item).flatten = paddedItem sp item := by
  cases sp with
  | none => simp [itemChunks, paddedItem]
  | some s =>
    obtain ⟨sn, pd, sa⟩ := s
    by_cases h : item.length < sn
    · cases sa <;> simp [itemChunks, paddedItem, h]
    · simp [itemChunks, paddedItem, h]

theorem emit_noGroup (sp : Option ItemSpan) (d : Str) :
    ∀ (items : List Str) (sep : EmittingSeparator) (cnt : Nat), items ≠ [] →
      (emit ⟨sep, ⟨sp, d, none⟩, cnt⟩ items).flatten =
        (sepChunks ⟨sep, ⟨sp, d, none⟩, cnt⟩).flatten ++
          List.intercalate d (items.map (paddedItem sp)) := by
  intro items
  induction items with
  | nil => intro _ _ h; exact absurd rfl h
  | cons it rest ih =>
    intro sep cnt _
    have hstep : stepWriter ⟨sep, ⟨sp, d, none⟩, cnt⟩ = ⟨.Item, ⟨sp, d, none⟩, 0⟩ := rfl
    simp only [emit, hstep, List.flatten_append, itemChunks_flatten]
    cases rest with
    | nil => simp [emit, List.intercalate]
    | cons r rs =>
      rw [ih .Item 0 (by simp)]
      simp only [List.map_cons]
      rw [intercalate_cons_of_ne_nil d (paddedItem sp it)
        (paddedItem sp r :: List.map (paddedItem sp) rs) (by simp)]
      simp [sepChunks, List.append_assoc]

theorem writePure_plain (d : Str) (items : List Str) :
    writePure items ⟨none, d, none⟩ = List.intercalate d items := by
  rw [writePure_emit]
  cases items with
  | nil => simp [emit, List.intercalate]
  | cons it rest =>
    rw [show ItemWriter.new ⟨none, d, none⟩ = ⟨.None, ⟨none, d, none⟩, 0⟩ from rfl]
    rw [emit_noGroup none d (it :: rest) .None 0 (by simp)]
    simp only [sepChunks, List.flatten_nil, List.nil_append]
    congr 1
    rw [show paddedItem none = fun item : Str => item from rfl]
    exact List.map_id' _


theorem next_item_explicit_ne_nil {r r' : ItemReader} {sep item : Str}
    (h : r.next_item (.Explicit sep) = some (some item, r')) : item ≠ [] := by
  unfold ItemReader.next_item at h
  by_cases hi : r.input = []
  · simp [hi] at h
  · simp only [hi, if_false] at h
    cases hso : splitOnce r.input sep with
    | none =>
      rw [hso] at h
      cases h
      exact hi
    | some p =>
      obtain ⟨a, b⟩ := p
      rw [hso] at h
      by_cases ha : a = [] <;> simp [ha] at h
      exact h.1 ▸ ha

theorem next_item_fmt {r r' : ItemReader} {sep : ItemSeparator}
    {res : Option Str} (h : r.next_item sep = some (res, r')) : r'.fmt = r.fmt := by
  unfold ItemReader.next_item at h
  by_cases hi : r.input = []
  · simp [hi] at h
    exact h.2 ▸ rfl
  · simp only [hi, if_false] at h
    cases sep with
    | Explicit s =>
      dsimp only at h
      cases hso : splitOnce r.input s with
      | none =>
        rw [hso] at h
        cases h
        rfl
      | some p =>
        obtain ⟨a, b⟩ := p
        rw [hso] at h
        by_cases ha : a = [] <;> simp [ha] at h <;>
          exact h.2 ▸ rfl
    | ByteCount n =>
      dsimp only at h
      by_cases hn : n ≤ byteLen r.input
      · simp only [hn, if_true] at h
        cases hsb : splitAtBytes n r.input with
        | none => rw [hsb] at h; cases h
        | some p =>
          obtain ⟨a, b⟩ := p
          rw [hsb] at h
          cases h
          rfl
      · simp only [hn, if_false] at h
        cases h
        rfl

theorem next_explicit_shape {d : Str} {r : ItemReader}
    (hfmt : r.fmt.item_separator = .Explicit d) {item : Str} {r' : ItemReader}
    (h : ItemReader.next r = some (some item, r')) : item ≠ [] ∧ r'.fmt = r.fmt := by
  unfold ItemReader.next at h
  cases hls : r.fmt.line_separator with
  | none =>
    rw [hls, hfmt] at h
    exact ⟨next_item_explicit_ne_nil h, next_item_fmt h⟩
  | some ls =>
    rw [hls] at h
    dsimp only at h
    by_cases hc : r.items_in_current_line = ls.items_per_line - 1
    · rw [if_pos hc] at h
      have h2 := next_item_fmt h
      exact ⟨next_item_explicit_ne_nil h, h2⟩
    · rw [if_neg hc, hfmt] at h
      have h2 := next_item_fmt h
      exact ⟨next_item_explicit_ne_nil h, h2⟩

theorem run_explicit_ne_nil {d : Str} : ∀ (fuel : Nat) (r : ItemReader) (l : List Str),
    r.fmt.item_separator = .Explicit d → run r fuel = some l → ∀ it ∈ l, it ≠ [] := by
  intro fuel
  induction fuel with
  | zero =>
    intro r l _ h
    cases h
    simp
  | succ f ih =>
    intro r l hfmt h
    rw [run] at h
    cases hnext : ItemReader.next r with
    | none => rw [hnext] at h; cases h
    | some p =>
      obtain ⟨res, r'⟩ := p
      rw [hnext] at h
      cases res with
      | none =>
        cases h
        simp
      | some item =>
        simp only [Option.map_eq_some'] at h
        obtain ⟨l', hl', rfl⟩ := h
        obtain ⟨hne, hpf⟩ := next_explicit_shape hfmt hnext
        intro it hit
        rcases List.mem_cons.mp hit with rfl | hmem
        · exact hne
        · exact ih r' l' (hpf ▸ hfmt) hl' it hmem

theorem splitAtBytes_spec : ∀ (n : Nat) (s a b : Str), splitAtBytes n s = some (a, b) →
    s = a ++ b ∧ byteLen a = n
  | 0, s, a, b, h => by
    simp only [splitAtBytes, Option.some.injEq, Prod.mk.injEq] at h
    obtain ⟨rfl, rfl⟩ := h
    exact ⟨rfl, rfl⟩
  | _ + 1, [], a, b, h => by simp [splitAtBytes] at h
  | n + 1, c :: t, a, b, h => by
    simp only [splitAtBytes] at h
    split_ifs at h with hsz
    · simp only [Option.map_eq_some'] at h
      obtain ⟨⟨a', b'⟩, hab, heq⟩ := h
      obtain ⟨rfl, rfl⟩ : c :: a' = a ∧ b' = b := by
        cases heq
        exact ⟨rfl, rfl⟩
      obtain ⟨ht, hlen⟩ := splitAtBytes_spec _ t a' b' hab
      refine ⟨by rw [ht]; rfl, ?_⟩
      rw [byteLen_cons, hlen]
      omega

theorem splitAtBytes_take : ∀ (i : Nat) (s : Str) (n : Nat), i ≤ s.length →
    byteLen (s.take i) = n → splitAtBytes n s = some (s.take i, s.drop i)
  | 0, s, n, _, h => by
    simp only [List.take_zero, byteLen_nil] at h
    rw [← h]
    simp [splitAtBytes]
  | i + 1, [], _, hle, _ => by simp at hle
  | i + 1, c :: t, n, hle, h => by
    rw [List.take_succ_cons, byteLen_cons] at h
    have hup := Char.utf8Size_pos c
    have hsz : c.utf8Size ≤ n := by omega
    obtain ⟨m, rfl⟩ : ∃ m, n = m + 1 := ⟨n - 1, by omega⟩
    have hle' : i ≤ t.length := by simpa using hle
    have ih := splitAtBytes_take i t (m + 1 - c.utf8Size) hle' (by omega)
    simp only [splitAtBytes]
    rw [if_pos hsz, ih]
    simp [List.take_succ_cons, List.drop_succ_cons]

theorem splitAtBytes_of_boundary {s : Str} {n : Nat} (hn : 0 < n)
    (hb : hasBoundary s n = true) :
    ∃ i, 1 ≤ i ∧ i ≤ s.length ∧ byteLen (s.take i) = n ∧
      splitAtBytes n s = some (s.take i, s.drop i) := by
  obtain ⟨i, hile, hlen⟩ := hasBoundary_iff.mp hb
  refine ⟨i, ?_, hile, hlen, splitAtBytes_take i s n hile hlen⟩
  rcases Nat.eq_zero_or_pos i with rfl | h
  · rw [List.take_zero, byteLen_nil] at hlen
    omega
  · exact h

theorem byteLen_split (s : Str) (i : Nat) :
    byteLen s = byteLen (s.take i) + byteLen (s.drop i) := by
  conv_lhs => rw [← List.take_append_drop i s]
  exact byteLen_append _ _

theorem hasBoundary_drop {s : Str} {i n : Nat} (hi : i ≤ s.length)
    (hbi : byteLen (s.take i) = n)
    (hb : ∀ k, k ≤ byteLen s → n ∣ k → hasBoundary s k = true) :
    ∀ k, k ≤ byteLen (s.drop i) → n ∣ k → hasBoundary (s.drop i) k = true := by
  intro k hk hdvd
  rcases Nat.eq_zero_or_pos k with rfl | hkpos
  · exact hasBoundary_iff.mpr ⟨0, Nat.zero_le _, rfl⟩
  · have hsplit := byteLen_split s i
    have hkn : k + n ≤ byteLen s := by omega
    have := hb (k + n) hkn (Nat.dvd_add hdvd (Nat.dvd_refl n))
    obtain ⟨j, hjle, hjlen⟩ := hasBoundary_iff.mp this
    have hij : i ≤ j := by
      by_contra hlt
      push_neg at hlt
      have := byteLen_take_mono s (Nat.le_of_lt hlt)
      omega
    obtain ⟨m, rfl⟩ : ∃ m, j = i + m := ⟨j - i, by omega⟩
    rw [List.take_add] at hjlen
    rw [byteLen_append, hbi] at hjlen
    refine hasBoundary_iff.mpr ⟨m, ?_, by omega⟩
    have := List.length_drop i s
    omega

theorem run_bytes (n : Nat) (hn : 0 < n) : ∀ (fuel : Nat) (s : Str) (c : Nat),
    s.length < fuel →
    (∀ k, k ≤ byteLen s → n ∣ k → hasBoundary s k = true) →
    ∃ items rem,
      run ⟨s, ⟨.ByteCount n, none⟩, c⟩ fuel = some items ∧
      items.flatten ++ rem = s ∧
      items.length = byteLen s / n ∧
      (∀ it ∈ items, byteLen it = n) ∧
      byteLen rem < n := by
  intro fuel
  induction fuel with
  | zero => intro s c h _; omega
  | succ f ih =>
    intro s c hlen hb
    by_cases hs : s = []
    · subst hs
      exact ⟨[], [], run_nil _ _ _, by simp, by simp [byteLen_nil], by simp,
        by simpa [byteLen_nil]⟩
    · by_cases hcnt : n ≤ byteLen s
      · obtain ⟨i, hi1, hile, hilen, hsplit⟩ :=
          splitAtBytes_of_boundary hn (hb n hcnt (Nat.dvd_refl n))
        have hnext : ItemReader.next ⟨s, ⟨.ByteCount n, none⟩, c⟩ =
            some (some (s.take i), ⟨s.drop i, ⟨.ByteCount n, none⟩, c⟩) := by
          simp [ItemReader.next, ItemReader.next_item, hs, hcnt, hsplit]
        have hstep : run ⟨s, ⟨.ByteCount n, none⟩, c⟩ (f + 1) =
            (run ⟨s.drop i, ⟨.ByteCount n, none⟩, c⟩ f).map ((s.take i) :: ·) := by
          simp only [run]
          rw [hnext]
        have hslen : 0 < s.length := List.length_pos.mpr hs
        have hdroplen : (s.drop i).length < f := by
          have := List.length_drop i s
          omega
        obtain ⟨items, rem, hrun, hflat, hcount, hall, hrem⟩ :=
          ih (s.drop i) c hdroplen (hasBoundary_drop hile hilen hb)
        refine ⟨s.take i :: items, rem, ?_, ?_, ?_, ?_, hrem⟩
        · rw [hstep, hrun]
          rfl
        · rw [List.flatten_cons, List.append_assoc, hflat, List.take_append_drop]
        · have hbl : byteLen (s.drop i) = byteLen s - n := by
            have := byteLen_split s i
            omega
          rw [List.length_cons, hcount, hbl, Nat.div_eq_sub_div hn hcnt]
        · intro it hit
          rcases List.mem_cons.mp hit with rfl | hmem
          · exact hilen
          · exact hall it hmem
      · push_neg at hcnt
        refine ⟨[], s, ?_, by simp, ?_, by simp, hcnt⟩
        · have hgt := Nat.not_le.mpr hcnt
          simp [run, ItemReader.next, ItemReader.next_item, hs, hgt]
        · simp [Nat.div_eq_of_lt hcnt]

theorem getLast?_ne_none : ∀ (l : List α), l ≠ [] → ∃ a, l.getLast? = some a
  | [], h => absurd rfl h
  | [x], _ => ⟨x, rfl⟩
  | x :: y :: t, _ => by
    obtain ⟨a, ha⟩ := getLast?_ne_none (y :: t) (by simp)
    exact ⟨a, by rw [List.getLast?_cons_cons, ha]⟩

theorem toIterBytes_eq_run (n : Nat) (hn : 0 < n) : ∀ (fuel : Nat) (s : Str) (c : Nat),
    s.length < fuel →
    n ∣ byteLen s →
    (∀ k, k ≤ byteLen s → n ∣ k → hasBoundary s k = true) →
    toIterBytes n fuel s = run ⟨s, ⟨.ByteCount n, none⟩, c⟩ fuel := by
  intro fuel
  induction fuel with
  | zero => intro s c h _ _; omega
  | succ f ih =>
    intro s c hlen hdvd hb
    by_cases hs : s = []
    · subst hs
      rw [run_nil]
      rfl
    · have hpos : 0 < byteLen s := by
        rcases Nat.eq_zero_or_pos (byteLen s) with h0 | h
        · exact absurd (byteLen_eq_zero.mp h0) hs
        · exact h
      have hcnt : n ≤ byteLen s := Nat.le_of_dvd hpos hdvd
      obtain ⟨i, hi1, hile, hilen, hsplit⟩ :=
        splitAtBytes_of_boundary hn (hb n hcnt (Nat.dvd_refl n))
      have hnext : ItemReader.next ⟨s, ⟨.ByteCount n, none⟩, c⟩ =
          some (some (s.take i), ⟨s.drop i, ⟨.ByteCount n, none⟩, c⟩) := by
        simp [ItemReader.next, ItemReader.next_item, hs, hcnt, hsplit]
      have hbl : byteLen (s.drop i) = byteLen s - n := by
        have := byteLen_split s i
        omega
      have hdvd' : n ∣ byteLen (s.drop i) := by
        rw [hbl]
        exact Nat.dvd_sub' hdvd (Nat.dvd_refl n)
      have hslen : 0 < s.length := List.length_pos.mpr hs
      have hdroplen : (s.drop i).length < f := by
        have := List.length_drop i s
        omega
      obtain ⟨ch, t, rfl⟩ : ∃ ch t, s = ch :: t := by
        cases s with
        | nil => exact absurd rfl hs
        | cons ch t => exact ⟨ch, t, rfl⟩
      have hmin : min n (byteLen (ch :: t)) = n := Nat.min_eq_left hcnt
      rw [show toIterBytes n (f + 1) (ch :: t) =
          match splitAtBytes (min n (byteLen (ch :: t))) (ch :: t) with
          | none => none
          | some (a, b) => (toIterBytes n f b).map (a :: ·) from rfl]
      rw [hmin, hsplit]
      simp only [run]
      rw [hnext]
      rw [ih ((ch :: t).drop i) c hdroplen hdvd' (hasBoundary_drop hile hilen hb)]

theorem succ_mod (k i : Nat) (hk : 0 < k) :
    (i + 1) % k = if i % k + 1 < k then i % k + 1 else 0 := by
  have hik : i % k < k := Nat.mod_lt _ hk
  by_cases hc : i % k + 1 < k
  · rw [if_pos hc, Nat.add_mod, Nat.mod_eq_of_lt (show 1 < k by omega),
      Nat.mod_eq_of_lt hc]
  · rw [if_neg hc]
    have hik1 : i % k = k - 1 := by omega
    rcases Nat.lt_or_ge 1 k with h2 | h1
    · rw [Nat.add_mod, hik1, Nat.mod_eq_of_lt h2, Nat.sub_add_cancel hk, Nat.mod_self]
    · have : k = 1 := by omega
      subst this
      simp [Nat.mod_one]

theorem emit_grouped (sp : Option ItemSpan) (isep : Str) (k : Nat) (ls : Str)
    (hk : 0 < k) : ∀ (items : List Str) (i : Nat),
    (emit ⟨sepState k i, ⟨sp, isep, some ⟨k, ls⟩⟩, i % k⟩ items).flatten =
      expectedFromPos sp isep k ls i items := by
  intro items
  induction items with
  | nil => intro i; simp [emit, expectedFromPos]
  | cons it rest ih =>
    intro i
    have hstep : stepWriter ⟨sepState k i, ⟨sp, isep, some ⟨k, ls⟩⟩, i % k⟩ =
        ⟨sepState k (i + 1), ⟨sp, isep, some ⟨k, ls⟩⟩, (i + 1) % k⟩ := by
      unfold stepWriter sepState
      dsimp only
      rw [succ_mod k i hk]
      by_cases hc : i % k + 1 < k <;> simp [hc]
    have hsep : (sepChunks ⟨sepState k i, ⟨sp, isep, some ⟨k, ls⟩⟩, i % k⟩).flatten =
        (if i = 0 then [] else if i % k = 0 then ls else isep) := by
      unfold sepChunks sepState
      dsimp only
      by_cases h0 : i = 0
      · simp [h0]
      · by_cases hm : i % k = 0 <;> simp [h0, hm, lineSepChunk]
    simp only [emit, List.flatten_append, itemChunks_flatten, hstep, ih (i + 1)]
    rw [hsep]
    simp [expectedFromPos, List.append_assoc]

theorem write_all_ok {sp : SinkSpec} {hist : List Str} {c : Str} {h' : List Str}
    (h : write_all sp hist c = .ok h') : h' = hist ++ [c] ∧ sp.fail hist c = none := by
  unfold write_all at h
  cases hf : sp.fail hist c <;> rw [hf] at h
  · cases h
    exact ⟨rfl, rfl⟩
  · cases h

theorem write_all_error {sp : SinkSpec} {hist : List Str} {c : Str} {e : Nat}
    {h' : List Str} (h : write_all sp hist c = .error (e, h')) :
    h' = hist ∧ sp.fail hist c = some e := by
  unfold write_all at h
  cases hf : sp.fail hist c <;> rw [hf] at h
  · cases h
  · cases h
    exact ⟨rfl, rfl⟩

theorem Consistent_nil (sp : SinkSpec) : Consistent sp [] := by
  intro i hi
  simp at hi

theorem Consistent_append {sp : SinkSpec} {h : List Str} {c : Str}
    (hc : Consistent sp h) (hf : sp.fail h c = none) : Consistent sp (h ++ [c]) := by
  intro i hi
  by_cases hlt : i < h.length
  · rw [List.take_append_of_le_length (Nat.le_of_lt hlt), List.getElem_append_left hlt]
    exact hc i hlt
  · have hieq : i = h.length := by
      simp only [List.length_append, List.length_singleton] at hi
      omega
    subst hieq
    rw [List.take_left h [c], List.getElem_concat_length h c h.length rfl hi]
    exact hf

theorem chain1_error {sp : SinkSpec} {hist : List Str} {c : Str} {e : Nat}
    {h : List Str} (hcons : Consistent sp hist)
    (hw : write_all sp hist c = .error (e, h)) :
    Consistent sp h ∧ ∃ c', sp.fail h c' = some e := by
  obtain ⟨rfl, hf⟩ := write_all_error hw
  exact ⟨hcons, c, hf⟩

theorem chain1_ok {sp : SinkSpec} {hist : List Str} {c : Str} {h : List Str}
    (hcons : Consistent sp hist) (hw : write_all sp hist c = .ok h) :
    Consistent sp h := by
  obtain ⟨rfl, hf⟩ := write_all_ok hw
  exact Consistent_append hcons hf

theorem chain2_error {sp : SinkSpec} {hist : List Str} {c1 c2 : Str} {e : Nat}
    {h : List Str} (hcons : Consistent sp hist)
    (hw : (match write_all sp hist c1 with
            | .error e => .error e
            | .ok h2 => write_all sp h2 c2) = Except.error (e, h)) :
    Consistent sp h ∧ ∃ c', sp.fail h c' = some e := by
  cases hr : write_all sp hist c1 with
  | error p =>
    obtain ⟨e', h''⟩ := p
    rw [hr] at hw
    cases hw
    exact chain1_error hcons hr
  | ok h2 =>
    rw [hr] at hw
    exact chain1_error (chain1_ok hcons hr) hw

theorem chain2_ok {sp : SinkSpec} {hist : List Str} {c1 c2 : Str} {h : List Str}
    (hcons : Consistent sp hist)
    (hw : (match write_all sp hist c1 with
            | .error e => .error e
            | .ok h2 => write_all sp h2 c2) = Except.ok h) :
    Consistent sp h := by
  cases hr : write_all sp hist c1 with
  | error p => rw [hr] at hw; cases hw
  | ok h2 =>
    rw [hr] at hw
    exact chain1_ok (chain1_ok hcons hr) hw

theorem emitPendingSep_error {w : ItemWriter} {sp : SinkSpec} {hist : List Str}
    {e : Nat} {h : List Str} (hcons : Consistent sp hist)
    (hw : emitPendingSep w sp hist = .error (e, h)) :
    Consistent sp h ∧ ∃ c', sp.fail h c' = some e := by
  rw [emitPendingSep] at hw
  cases hsep : w.separator <;> rw [hsep] at hw <;> dsimp only at hw
  · cases hw
  · exact chain1_error hcons hw
  · exact chain1_error hcons hw

theorem emitPendingSep_ok {w : ItemWriter} {sp : SinkSpec} {hist : List Str}
    {h : List Str} (hcons : Consistent sp hist)
    (hw : emitPendingSep w sp hist = .ok h) : Consistent sp h := by
  rw [emitPendingSep] at hw
  cases hsep : w.separator <;> rw [hsep] at hw <;> dsimp only at hw
  · cases hw
    exact hcons
  · exact chain1_ok hcons hw
  · exact chain1_ok hcons hw

theorem writeBody_error {fs : Option ItemSpan} {item : Str} {sp : SinkSpec}
    {hist : List Str} {e : Nat} {h : List Str} (hcons : Consistent sp hist)
    (hw : writeBody fs item sp hist = .error (e, h)) :
    Consistent sp h ∧ ∃ c', sp.fail h c' = some e := by
  unfold writeBody at hw
  cases fs with
  | none => exact chain1_error hcons hw
  | some s =>
    dsimp only at hw
    by_cases hlt : item.length < s.span
    · rw [if_pos hlt] at hw
      cases hanc : s.anchor <;> rw [hanc] at hw <;> dsimp only at hw
      · exact chain2_error hcons hw
      · exact chain2_error hcons hw
    · rw [if_neg hlt] at hw
      exact chain1_error hcons hw

theorem writeBody_ok {fs : Option ItemSpan} {item : Str} {sp : SinkSpec}
    {hist : List Str} {h : List Str} (hcons : Consistent sp hist)
    (hw : writeBody fs item sp hist = .ok h) : Consistent sp h := by
  unfold writeBody at hw
  cases fs with
  | none => exact chain1_ok hcons hw
  | some s =>
    dsimp only at hw
    by_cases hlt : item.length < s.span
    · rw [if_pos hlt] at hw
      cases hanc : s.anchor <;> rw [hanc] at hw <;> dsimp only at hw
      · exact chain2_ok hcons hw
      · exact chain2_ok hcons hw
    · rw [if_neg hlt] at hw
      exact chain1_ok hcons hw

theorem itemWrite_error {w : ItemWriter} {item : Str} {sp : SinkSpec}
    {hist : List Str} {e : Nat} {h : List Str} (hcons : Consistent sp hist)
    (hw : ItemWriter.write w item sp hist = .error (e, h)) :
    Consistent sp h ∧ ∃ c', sp.fail h c' = some e := by
  unfold ItemWriter.write at hw
  cases hr : emitPendingSep w sp hist with
  | error p =>
    obtain ⟨e', h''⟩ := p
    rw [hr] at hw
    cases hw
    exact emitPendingSep_error hcons hr
  | ok hist1 =>
    rw [hr] at hw
    dsimp only at hw
    have hcons1 := emitPendingSep_ok hcons hr
    cases hb : writeBody w.fmt.span item sp hist1 with
    | error p =>
      obtain ⟨e', h''⟩ := p
      rw [hb] at hw
      cases hw
      exact writeBody_error hcons1 hb
    | ok hist2 => rw [hb] at hw; cases hw

theorem itemWrite_ok {w w' : ItemWriter} {item : Str} {sp : SinkSpec}
    {hist h : List Str} (hcons : Consistent sp hist)
    (hw : ItemWriter.write w item sp hist = .ok (w', h)) : Consistent sp h := by
  unfold ItemWriter.write at hw
  cases hr : emitPendingSep w sp hist with
  | error p => rw [hr] at hw; cases hw
  | ok hist1 =>
    rw [hr] at hw
    dsimp only at hw
    have hcons1 := emitPendingSep_ok hcons hr
    cases hb : writeBody w.fmt.span item sp hist1 with
    | error p => rw [hb] at hw; cases hw
    | ok hist2 =>
      rw [hb] at hw
      cases hw
      exact writeBody_ok hcons1 hb

theorem writeLoop_error {sp : SinkSpec} : ∀ (items : List Str) (w : ItemWriter)
    (hist : List Str) (e : Nat) (h : List Str), Consistent sp hist →
    writeLoop w items sp hist = .error (e, h) →
    Consistent sp h ∧ ∃ c', sp.fail h c' = some e := by
  intro items
  induction items with
  | nil =>
    intro w hist e h _ hw
    cases hw
  | cons it rest ih =>
    intro w hist e h hcons hw
    rw [writeLoop] at hw
    cases hr : ItemWriter.write w it sp hist with
    | error p =>
      obtain ⟨e', h''⟩ := p
      rw [hr] at hw
      cases hw
      exact itemWrite_error hcons hr
    | ok p =>
      obtain ⟨w', hist'⟩ := p
      rw [hr] at hw
      exact ih w' hist' e h (itemWrite_ok hcons hr) hw

/-- C1 (counterexample): the round-trip law fails as stated.  On input
`"a,,b"` with delimiter `","` the delimiter occurs in no yielded item and
the input does not end with the delimiter, yet the output is `"a"`, not the
input: the empty segment between the two delimiters stops iteration. -/
theorem c1_counterexample :
    readAll ⟨.Explicit [','], none⟩ ("a,,b".toList) = some [['a']] ∧
    (∀ it ∈ [['a']], occursIn [','] it = false) ∧
    List.isSuffixOf [','] ("a,,b".toList) = false ∧
    writePure [['a']] ⟨none, [','], none⟩ ≠ "a,,b".toList := by
  refine ⟨?_, ?_, ?_, ?_⟩ <;> decide

/-- C1 (amended): tokenizing with `Explicit d` and re-emitting with item
separator `d`, no span and no line grouping reproduces the input exactly,
whenever `d` is non-empty and no segment of the full `d`-split of the input
is empty (so `d` occurs inside no item, the input does not end with `d`,
and no empty item stops the iteration early). -/
theorem c1_round_trip (input d : Str) (hd : d ≠ [])
    (hseg : ∀ seg ∈ splitFull d (input.length + 1) input, seg ≠ []) :
    ∃ items, readAll ⟨.Explicit d, none⟩ input = some items ∧
      writePure items ⟨none, d, none⟩ = input := by
  refine ⟨splitFull d (input.length + 1) input, ?_, ?_⟩
  · exact run_explicit d hd (input.length + 1) input 0 (Nat.lt_succ_self _) hseg
  · rw [writePure_plain, intercalate_splitFull]

/-- C1 witness: the round trip at input `"a,b"` with delimiter `","`. -/
theorem c1_round_trip_witness :
    ∃ items, readAll ⟨.Explicit [','], none⟩ ("a,b".toList) = some items ∧
      writePure items ⟨none, [','], none⟩ = "a,b".toList :=
  c1_round_trip ("a,b".toList) [','] (by decide) (by decide)

/-- C2: with an explicit item separator the reader never yields an empty
item; a step whose pre-delimiter text is empty yields no item (with the
input already advanced past the delimiter), and a step yielding no item
ends the pulled sequence. -/
theorem c2_no_empty_items (fmt : InFormat) (d input : Str)
    (hf : fmt.item_separator = .Explicit d) :
    (∀ l, readAll fmt input = some l → ∀ it ∈ l, it ≠ []) ∧
    (∀ (r : ItemReader) (sep b : Str), splitOnce r.input sep = some ([], b) →
      ItemReader.next_item r (.Explicit sep) = some (none, { r with input := b })) ∧
    (∀ (r r' : ItemReader) (fuel : Nat), ItemReader.next r = some (none, r') →
      run r (fuel + 1) = some []) := by
  refine ⟨?_, ?_, ?_⟩
  · intro l hl
    exact run_explicit_ne_nil (input.length + 1) (ItemReader.new input fmt) l hf hl
  · intro r sep b hso
    by_cases hi : r.input = []
    · rw [hi] at hso
      by_cases hsep : sep = []
      · subst hsep
        have hb : b = [] := by
          have : splitOnce ([] : Str) [] = some ([], []) := by
            simp [splitOnce, findOcc]
          rw [this] at hso
          cases hso
          rfl
        subst hb
        obtain ⟨inp, fmtr, cnt⟩ := r
        simp only at hi
        subst hi
        simp [ItemReader.next_item]
      · have : splitOnce ([] : Str) sep = none := by
          simp [splitOnce, findOcc, hsep]
        rw [this] at hso
        cases hso
    · simp [ItemReader.next_item, hi, hso]
  · intro r r' fuel hn
    simp [run, hn]

/-- C2 witness: the claim applied to separator `","` on input `"a,bb"`. -/
theorem c2_no_empty_items_witness :
    (∀ l, readAll ⟨.Explicit [','], none⟩ ("a,bb".toList) = some l →
      ∀ it ∈ l, it ≠ []) ∧
    (∀ (r : ItemReader) (sep b : Str), splitOnce r.input sep = some ([], b) →
      ItemReader.next_item r (.Explicit sep) = some (none, { r with input := b })) ∧
    (∀ (r r' : ItemReader) (fuel : Nat), ItemReader.next r = some (none, r') →
      run r (fuel + 1) = some []) :=
  c2_no_empty_items ⟨.Explicit [','], none⟩ [','] ("a,bb".toList) rfl

/-- C3: byte-count tokenization with `0 < n`, when every byte offset that
is a multiple of `n` (up to the byte length) is a character boundary,
yields exactly `byteLen s / n` items of exactly `n` bytes each, in order
(their concatenation is a prefix of the input), and discards the short
final remainder (fewer than `n` bytes). -/
theorem c3_byte_count (s : Str) (n : Nat) (hn : 0 < n)
    (hb : ∀ k, k ≤ byteLen s → n ∣ k → hasBoundary s k = true) :
    ∃ items rem,
      readAll ⟨.ByteCount n, none⟩ s = some items ∧
      items.flatten ++ rem = s ∧
      items.length = byteLen s / n ∧
      (∀ it ∈ items, byteLen it = n) ∧
      byteLen rem < n :=
  run_bytes n hn (s.length + 1) s 0 (Nat.lt_succ_self _) hb

/-- C3 witness: `"aabbc"` with `n = 2` (five bytes: two items, remainder
`"c"` discarded). -/
theorem c3_byte_count_witness :
    ∃ items rem,
      readAll ⟨.ByteCount 2, none⟩ ("aabbc".toList) = some items ∧
      items.flatten ++ rem = "aabbc".toList ∧
      items.length = byteLen ("aabbc".toList) / 2 ∧
      (∀ it ∈ items, byteLen it = 2) ∧
      byteLen rem < 2 :=
  c3_byte_count ("aabbc".toList) 2 (by decide) (by decide)

/-- C4: a `write` call emits the pending separator followed by the padded
item; with a configured span `s` and a short item the padded form is
`item ++ pad` (anchor `Left`) or `pad ++ item` (anchor `Right`) with scalar
length exactly `s.span`; with no span, or an item at least as wide as the
span, the item is emitted unchanged (never truncated). -/
theorem c4_padding (w : ItemWriter) (item : Str) (hist : List Str) :
    ItemWriter.write w item noFailSink hist =
      .ok (stepWriter w, hist ++ (sepChunks w ++ itemChunks w.fmt.span item)) ∧
    (itemChunks w.fmt.span item).flatten = paddedItem w.fmt.span item ∧
    (∀ s, w.fmt.span = some s → item.length < s.span →
      paddedItem w.fmt.span item =
        (match s.anchor with
          | .Left => item ++ List.replicate (s.span - item.length) s.pad
          | .Right => List.replicate (s.span - item.length) s.pad ++ item) ∧
      (paddedItem w.fmt.span item).length = s.span) ∧
    (∀ s, w.fmt.span = some s → s.span ≤ item.length →
      paddedItem w.fmt.span item = item) ∧
    (w.fmt.span = none → paddedItem w.fmt.span item = item) := by
  refine ⟨write_noFail w item hist, itemChunks_flatten _ _, ?_, ?_, ?_⟩
  · intro s hs hlt
    rw [hs]
    obtain ⟨sn, pd, sa⟩ := s
    unfold paddedItem
    dsimp only
    rw [if_pos hlt]
    cases sa
    · refine ⟨rfl, ?_⟩
      simp only [List.length_append, List.length_replicate]
      dsimp only at hlt ⊢
      omega
    · refine ⟨rfl, ?_⟩
      simp only [List.length_append, List.length_replicate]
      dsimp only at hlt ⊢
      omega
  · intro s hs hge
    rw [hs]
    unfold paddedItem
    dsimp only
    rw [if_neg (Nat.not_lt.mpr hge)]
  · intro hs
    rw [hs]
    exact paddedItem_none item

/-- C4 witness: span 4, pad `_`, anchor Right on item `"001"`. -/
theorem c4_padding_witness :
    paddedItem (some ⟨4, '_', .Right⟩) ("001".toList) =
      List.replicate 1 '_' ++ "001".toList ∧
    (paddedItem (some ⟨4, '_', .Right⟩) ("001".toList)).length = 4 := by
  have h := (c4_padding ⟨.None, ⟨some ⟨4, '_', .Right⟩, [' '], none⟩, 0⟩
    ("001".toList) []).2.2.1 ⟨4, '_', .Right⟩ rfl (by decide)
  exact ⟨h.1, h.2⟩

/-- C5: with line grouping `k`/`ls` configured (`0 < k`), the writer emits
no separator before the first item, the line separator before every item
whose 0-based position is a non-zero multiple of `k`, and the item
separator before every other item, each item padded per the span. -/
theorem c5_line_grouping (items : List Str) (sp : Option ItemSpan) (isep : Str)
    (k : Nat) (ls : Str) (hk : 0 < k) :
    writePure items ⟨sp, isep, some ⟨k, ls⟩⟩ = expectedFromPos sp isep k ls 0 items := by
  rw [writePure_emit]
  have hnew : ItemWriter.new ⟨sp, isep, some ⟨k, ls⟩⟩ =
      ⟨sepState k 0, ⟨sp, isep, some ⟨k, ls⟩⟩, 0 % k⟩ := by
    simp [ItemWriter.new, sepState, Nat.zero_mod]
  rw [hnew, emit_grouped sp isep k ls hk items 0]

/-- C5 witness: the spec's concrete example — items `["001","01","1"]`,
span 4 / pad `_` / anchor Right, item separator `"|"`, line separator `";"`,
two items per line produce exactly `"_001|__01;___1"`. -/
theorem c5_line_grouping_witness :
    writePure [("001".toList), ("01".toList), ("1".toList)]
        ⟨some ⟨4, '_', .Right⟩, ['|'], some ⟨2, [';']⟩⟩ =
      "_001|__01;___1".toList := by
  rw [c5_line_grouping [("001".toList), ("01".toList), ("1".toList)]
    (some ⟨4, '_', .Right⟩) ['|'] 2 [';'] (by decide)]
  decide

/-- C6: at each reader step with line grouping `k`/`ls` configured
(`1 ≤ k`), if the reader's own counter equals `k - 1` the step searches for
the line separator as an explicit delimiter and the counter resets to 0;
otherwise it searches for the ordinary item separator and the counter
increments.  The counter is part of the reader's own state, so it depends
only on the input format. -/
theorem c6_reader_grouping (r : ItemReader) (k : Nat) (ls : Str)
    (hls : r.fmt.line_separator = some ⟨k, ls⟩) (hk : 1 ≤ k) :
    (r.items_in_current_line = k - 1 →
      ItemReader.next r =
        ItemReader.next_item { r with items_in_current_line := 0 } (.Explicit ls)) ∧
    (r.items_in_current_line ≠ k - 1 →
      ItemReader.next r =
        ItemReader.next_item
          { r with items_in_current_line := r.items_in_current_line + 1 }
          r.fmt.item_separator) := by
  unfold ItemReader.next
  rw [hls]
  dsimp only
  constructor
  · intro hc
    rw [if_pos hc]
  · intro hc
    rw [if_neg hc]

/-- C6 witness: a reader over `"a;b"` with grouping 2/`";"` and counter 1
uses the line separator for this step. -/
theorem c6_reader_grouping_witness :
    ItemReader.next ⟨"a;b".toList, ⟨.Explicit [','], some ⟨2, [';']⟩⟩, 1⟩ =
      ItemReader.next_item
        ⟨"a;b".toList, ⟨.Explicit [','], some ⟨2, [';']⟩⟩, 0⟩ (.Explicit [';']) :=
  (c6_reader_grouping ⟨"a;b".toList, ⟨.Explicit [','], some ⟨2, [';']⟩⟩, 1⟩
    2 [';'] rfl (by decide)).1 rfl

/-- C7: if the top-level `write` returns a sink error, the error code is
the sink's own (verbatim), the chunks in the sink are exactly the ones the
sink accepted (each `fail` query along the way returned `none` — nothing
was written after the failure, no retry), and the failing `write_all` call
is a sink failure on exactly that history. -/
theorem c7_sink_error (items : List Str) (sp : SinkSpec) (fmt : OutFormat)
    (e : Nat) (h : List Str) (hw : write items sp fmt = .error (e, h)) :
    Consistent sp h ∧ ∃ c, sp.fail h c = some e :=
  writeLoop_error items (ItemWriter.new fmt) [] e h (Consistent_nil sp) hw

/-- C7 witness: a sink failing with code 7 on its second chunk aborts the
write after the first item. -/
theorem c7_sink_error_witness :
    Consistent ⟨fun hist _ => if hist.length = 1 then some 7 else none⟩ [['a']] ∧
    ∃ c, SinkSpec.fail ⟨fun hist _ => if hist.length = 1 then some 7 else none⟩
      [['a']] c = some 7 :=
  c7_sink_error [['a'], ['b']] ⟨fun hist _ => if hist.length = 1 then some 7 else none⟩
    ⟨none, ['|'], none⟩ 7 [['a']] rfl

/-- C8: the empty input tokenizes to the empty item sequence under every
input format (the first reader step yields nothing), and writing no items
sends nothing to the sink under every output format and sink. -/
theorem c8_empty_input (ifmt : InFormat) (ofmt : OutFormat) (sp : SinkSpec) :
    readAll ifmt [] = some [] ∧
    (∃ r', ItemReader.next (ItemReader.new [] ifmt) = some (none, r')) ∧
    write [] sp ofmt = .ok [] := by
  refine ⟨run_nil ifmt 0 1, ?_, rfl⟩
  cases hls : ifmt.line_separator with
  | none =>
    exact ⟨⟨[], ifmt, 0⟩, by simp [ItemReader.next, ItemReader.next_item,
      ItemReader.new, hls]⟩
  | some ls =>
    by_cases hc : (0 : Nat) = ls.items_per_line - 1
    · exact ⟨⟨[], ifmt, 0⟩, by simp [ItemReader.next, ItemReader.next_item,
        ItemReader.new, hls, hc]⟩
    · exact ⟨⟨[], ifmt, 1⟩, by simp [ItemReader.next, ItemReader.next_item,
        ItemReader.new, hls, hc]⟩

/-- C10: the reader iterator is not fused.  On `"a,,b"` split at `","`,
the first `next` yields `"a"`, the second returns `None` (while the state
advances past the empty segment), and a third call yields `"b"` again. -/
theorem c10_not_fused :
    ItemReader.next (ItemReader.new ("a,,b".toList) ⟨.Explicit [','], none⟩) =
      some (some ("a".toList), ⟨",b".toList, ⟨.Explicit [','], none⟩, 0⟩) ∧
    ItemReader.next ⟨",b".toList, ⟨.Explicit [','], none⟩, 0⟩ =
      some (none, ⟨"b".toList, ⟨.Explicit [','], none⟩, 0⟩) ∧
    ItemReader.next ⟨"b".toList, ⟨.Explicit [','], none⟩, 0⟩ =
      some (some ("b".toList), ⟨[], ⟨.Explicit [','], none⟩, 0⟩) := by
  refine ⟨?_, ?_, ?_⟩ <;> decide

/-- C9 (counterexample): the CLI tokenizer and the core reader disagree:
on `"aabbc"` with `ByteCount 2` the CLI side keeps the short final chunk
`"c"` while the core reader discards it. -/
theorem c9_counterexample :
    to_iter ("aabbc".toList) (.ByteCount 2) ≠
      readAll ⟨.ByteCount 2, none⟩ ("aabbc".toList) := by
  decide

/-- C9 (amended): `util::to_iter` and the core reader (same separator, no
line grouping) produce the same item sequence whenever the separator is a
non-empty explicit delimiter whose full split has no empty segment, or a
positive byte count that divides the input's byte length with every needed
split offset on a character boundary. -/
theorem c9_to_iter_refines_read (sep : ItemSeparator) (s : Str)
    (h : sepOk sep s) : to_iter s sep = readAll ⟨sep, none⟩ s := by
  cases sep with
  | Explicit d =>
    obtain ⟨hd, hseg⟩ := h
    have hrun := run_explicit d hd (s.length + 1) s 0 (Nat.lt_succ_self _) hseg
    rw [show readAll ⟨.Explicit d, none⟩ s =
      run ⟨s, ⟨.Explicit d, none⟩, 0⟩ (s.length + 1) from rfl, hrun]
    unfold to_iter
    dsimp only
    obtain ⟨a, ha⟩ :=
      getLast?_ne_none (splitFull d (s.length + 1) s) (splitFull_ne_nil d _ s)
    have hane : a ≠ [] := hseg a (getLast?_mem' _ a ha)
    rw [ha]
    cases a with
    | nil => exact absurd rfl hane
    | cons c t => rfl
  | ByteCount n =>
    obtain ⟨hn, hdvd, hb⟩ := h
    have heq := toIterBytes_eq_run n hn (s.length + 1) s 0 (Nat.lt_succ_self _) hdvd hb
    rw [show to_iter s (.ByteCount n) = toIterBytes n (s.length + 1) s from rfl, heq]
    rfl

/-- C9 witness: both tokenizers on `"a,b"` with delimiter `","`. -/
theorem c9_to_iter_refines_read_witness :
    to_iter ("a,b".toList) (.Explicit [',']) =
      readAll ⟨.Explicit [','], none⟩ ("a,b".toList) :=
  c9_to_iter_refines_read (.Explicit [',']) ("a,b".toList) ⟨by decide, by decide⟩

end Lineup
